import Mathlib

/-!
Verification of the kokoro TTS wrapper (`src/main.py`).

Python strings are modelled as `List Char` (sequences of Unicode code
points).  The external collaborators (the synthesis engine, the audio
player, the file system) are modelled as oracles; everything else is a
direct shallow embedding of the Python source.
-/

namespace OtoTTS

/-- The set of characters matched by Python's `\s` in Unicode mode (the same
set as `str.isspace`): `\t \n \v \f \r`, the information separators
`U+001C`–`U+001F`, space, `U+0085`, `U+00A0`, `U+1680`, `U+2000`–`U+200A`,
`U+2028`, `U+2029`, `U+202F`, `U+205F`, `U+3000`. -/
def pySpace (c : Char) : Bool :=
  let n := c.toNat
  decide ((9 ≤ n ∧ n ≤ 13) ∨ (28 ≤ n ∧ n ≤ 31) ∨ n = 32 ∨ n = 0x85 ∨
    n = 0xA0 ∨ n = 0x1680 ∨ (0x2000 ≤ n ∧ n ≤ 0x200A) ∨ n = 0x2028 ∨
    n = 0x2029 ∨ n = 0x202F ∨ n = 0x205F ∨ n = 0x3000)

/-- `str.strip()`: drop leading and trailing Python whitespace. -/
def pyStrip (s : List Char) : List Char :=
  ((s.dropWhile pySpace).reverse.dropWhile pySpace).reverse

/-- State of `re.sub(r"\s+", " ", s)`: `true` while inside a whitespace run
that has already emitted its single replacement space. -/
def collapseAux : Bool → List Char → List Char
  | _, [] => []
  | inRun, c :: cs =>
    if pySpace c then
      if inRun then collapseAux true cs else ' ' :: collapseAux true cs
    else c :: collapseAux false cs

/-- `re.sub(r"\s+", " ", s)`: every maximal whitespace run becomes one space. -/
def collapseWS (s : List Char) : List Char := collapseAux false s

/-- `normalize_text(s) = re.sub(r"\s+", " ", s.strip())` (src/main.py:20-21). -/
def normalize_text (s : List Char) : List Char := collapseWS (pyStrip s)

/-- CJK test of `CJK_REGEX = [㐀-䶿一-鿿豈-﫿]`. -/
def isCJKChar (c : Char) : Bool :=
  let n := c.toNat
  decide ((0x3400 ≤ n ∧ n ≤ 0x4DBF) ∨ (0x4E00 ≤ n ∧ n ≤ 0x9FFF) ∨
    (0xF900 ≤ n ∧ n ≤ 0xFAFF))

/-- `contains_cjk(s)` (src/main.py:17-18): `CJK_REGEX.search(s) is not None`. -/
def contains_cjk (s : List Char) : Bool := s.any isCJKChar

/-- Sentence-ending punctuation of the first lookbehind alternative of
`SPLIT_REGEX`: `[\.!\?;:。！？；：…]`. -/
def sentencePunct : List Char := ['.', '!', '?', ';', ':', '。', '！', '？', '；', '：', '…']

/-- CJK list separators of the second lookbehind alternative: `[，、]`. -/
def listSeps : List Char := ['，', '、']

/-- Lookbehind test: the previous character (if any) satisfies one of the two
lookbehind classes of `SPLIT_REGEX`. -/
def prevIsPunct : Option Char → Bool
  | some p => sentencePunct.contains p || listSeps.contains p
  | none => false

/-- Scanner mode while executing `re.split` with
`SPLIT_REGEX = (?<=[\.!\?;:。！？；：…])\s+|(?<=[，、])\s+|\n+` (src/main.py:15).
`part` is ordinary text, `delimWS` is inside a `\s+` match of the first two
alternatives, `delimNL` is inside a `\n+` match of the third alternative. -/
inductive ScanMode where
  | part
  | delimWS
  | delimNL
deriving DecidableEq

/-- Character-by-character execution of `SPLIT_REGEX.split`.  `prev` is the
character at the previous string position (for the lookbehinds), `acc` holds
the current part in reverse.  At a position whose previous character is in a
lookbehind class and whose character is whitespace, the first/second
alternative matches and greedily consumes the maximal `\s+` run (`delimWS`);
otherwise a newline starts a maximal `\n+` match (`delimNL`).  A match ends
at the first character that does not extend it; no new match can start
there (its lookbehind character is whitespace and, the run being maximal,
it is itself not part of `\s+`/`\n+`), so scanning resumes in `part` mode. -/
def splitScan (prev : Option Char) (mode : ScanMode) (acc : List Char) :
    List Char → List (List Char)
  | [] => [acc.reverse]
  | c :: cs =>
    match mode with
    | ScanMode.part =>
      if prevIsPunct prev && pySpace c then
        acc.reverse :: splitScan (some c) ScanMode.delimWS [] cs
      else if c = '\n' then
        acc.reverse :: splitScan (some c) ScanMode.delimNL [] cs
      else splitScan (some c) ScanMode.part (c :: acc) cs
    | ScanMode.delimWS =>
      if pySpace c then splitScan (some c) ScanMode.delimWS [] cs
      else splitScan (some c) ScanMode.part [c] cs
    | ScanMode.delimNL =>
      if c = '\n' then splitScan (some c) ScanMode.delimNL [] cs
      else splitScan (some c) ScanMode.part [c] cs

/-- `SPLIT_REGEX.split(text)`. -/
def splitRegexSplit (text : List Char) : List (List Char) :=
  splitScan none ScanMode.part [] text

/-- `split_into_sentences(text)` (src/main.py:23-25):
`parts = [p.strip() for p in SPLIT_REGEX.split(text) if p and p.strip()]`
(equivalently: strip every raw part, keep the non-empty results, since a
falsy `p` strips to the empty string anyway), and fall back to
`[text.strip()]` when nothing remains. -/
def split_into_sentences (text : List Char) : List (List Char) :=
  let parts := ((splitRegexSplit text).map pyStrip).filter (fun p => !p.isEmpty)
  if parts.isEmpty then [pyStrip text] else parts

/-- The greedy packing loop of `chunk_text` (src/main.py:29-41): `cur` is the
running buffer, joined to the next sentence by a single space when
`len(cur) + 1 + len(sent) <= max_chars`, otherwise closed as a chunk. -/
def chunkLoop (max_chars : Nat) (cur : List Char) :
    List (List Char) → List (List Char)
  | [] => if cur.isEmpty then [] else [cur]
  | sent :: rest =>
    if cur.isEmpty then chunkLoop max_chars sent rest
    else if cur.length + 1 + sent.length ≤ max_chars then
      chunkLoop max_chars (cur ++ ' ' :: sent) rest
    else cur :: chunkLoop max_chars sent rest

/-- `chunk_text(text, max_chars)` (src/main.py:27-41). -/
def chunk_text (text : List Char) (max_chars : Nat) : List (List Char) :=
  chunkLoop max_chars [] (split_into_sentences text)

/-! ### Claim C5/C6: chunk length bound and non-emptiness -/

/-- Every chunk produced by the packing loop is either within the budget, the
initial buffer, or one of the input sentences (oversized sentences are kept
whole). -/
theorem chunkLoop_mem (max_chars : Nat) :
    ∀ (sents : List (List Char)) (cur c : List Char),
      c ∈ chunkLoop max_chars cur sents →
      c.length ≤ max_chars ∨ c = cur ∨ c ∈ sents := by
  intro sents
  induction sents with
  | nil =>
    intro cur c hc
    simp only [chunkLoop] at hc
    split at hc
    · simp at hc
    · simp at hc
      exact Or.inr (Or.inl hc)
  | cons sent rest ih =>
    intro cur c hc
    simp only [chunkLoop] at hc
    split at hc
    · rcases ih sent c hc with h | h | h
      · exact Or.inl h
      · exact Or.inr (Or.inr (by simp [h]))
      · exact Or.inr (Or.inr (List.mem_cons_of_mem _ h))
    · split at hc
      · next hfit =>
        rcases ih _ c hc with h | h | h
        · exact Or.inl h
        · subst h
          refine Or.inl ?_
          simp only [List.length_append, List.length_cons]
          omega
        · exact Or.inr (Or.inr (List.mem_cons_of_mem _ h))
      · rcases List.mem_cons.mp hc with h | h
        · exact Or.inr (Or.inl h)
        · rcases ih sent c h with h' | h' | h'
          · exact Or.inl h'
          · exact Or.inr (Or.inr (by simp [h']))
          · exact Or.inr (Or.inr (List.mem_cons_of_mem _ h'))

/-- C5: for every input text and every positive `max_chars`, each string
returned by `chunk_text text max_chars` has length at most `max_chars`,
unless it is one of the atomic split units returned by
`split_into_sentences` whose own length exceeds `max_chars`, in which case
it is kept whole (it literally is that unit, never truncated or split). -/
theorem chunk_text_length_bound (text : List Char) (max_chars : Nat)
    (hpos : 0 < max_chars) (c : List Char) (hc : c ∈ chunk_text text max_chars) :
    c.length ≤ max_chars ∨
      (max_chars < c.length ∧ c ∈ split_into_sentences text) := by
  rcases chunkLoop_mem max_chars (split_into_sentences text) [] c hc with h | h | h
  · exact Or.inl h
  · subst h
    exact Or.inl (by simp)
  · by_cases hlen : c.length ≤ max_chars
    · exact Or.inl hlen
    · exact Or.inr ⟨by omega, h⟩

/-- Witness for C5 at the concrete input `"ab. cd"` with `max_chars = 2`:
the oversized chunk `"ab."` is an atomic sentence kept whole. -/
theorem chunk_text_length_bound_witness :
    (0 < 2 ∧ ['a', 'b', '.'] ∈ chunk_text ['a', 'b', '.', ' ', 'c', 'd'] 2) ∧
    (['a', 'b', '.'].length ≤ 2 ∨
      (2 < ['a', 'b', '.'].length ∧
        ['a', 'b', '.'] ∈ split_into_sentences ['a', 'b', '.', ' ', 'c', 'd'])) :=
  ⟨⟨by decide, by decide⟩,
   chunk_text_length_bound ['a', 'b', '.', ' ', 'c', 'd'] 2 (by decide) _ (by decide)⟩

/-- C6 counterexample: on input that is empty after trimming, `chunk_text`
returns the empty list, not the one-element list containing the empty
string (the claim asserts a non-empty result for every input). -/
theorem chunk_text_empty_input_counterexample : chunk_text [] 240 = [] := by decide

/-- Every character of every raw part produced by the scanner comes from the
accumulator or the remaining input. -/
theorem splitScan_chars :
    ∀ (cs : List Char) (prev : Option Char) (mode : ScanMode) (acc p : List Char)
      (c : Char), p ∈ splitScan prev mode acc cs → c ∈ p → c ∈ acc ∨ c ∈ cs := by
  intro cs
  induction cs with
  | nil =>
    intro prev mode acc p c hp hc
    simp only [splitScan] at hp
    simp at hp
    subst hp
    exact Or.inl (by simpa using hc)
  | cons ch rest ih =>
    intro prev mode acc p c hp hc
    cases mode with
    | part =>
      simp only [splitScan] at hp
      split at hp
      · rcases List.mem_cons.mp hp with h | h
        · subst h
          exact Or.inl (by simpa using hc)
        · rcases ih _ _ _ _ c h hc with h' | h'
          · simp at h'
          · exact Or.inr (List.mem_cons_of_mem _ h')
      · split at hp
        · rcases List.mem_cons.mp hp with h | h
          · subst h
            exact Or.inl (by simpa using hc)
          · rcases ih _ _ _ _ c h hc with h' | h'
            · simp at h'
            · exact Or.inr (List.mem_cons_of_mem _ h')
        · rcases ih _ _ _ _ c hp hc with h' | h'
          · rcases List.mem_cons.mp h' with h'' | h''
            · exact Or.inr (by simp [h''])
            · exact Or.inl h''
          · exact Or.inr (List.mem_cons_of_mem _ h')
    | delimWS =>
      simp only [splitScan] at hp
      split at hp
      · rcases ih _ _ _ _ c hp hc with h' | h'
        · simp at h'
        · exact Or.inr (List.mem_cons_of_mem _ h')
      · rcases ih _ _ _ _ c hp hc with h' | h'
        · rcases List.mem_cons.mp h' with h'' | h''
          · exact Or.inr (by simp [h''])
          · simp at h''
        · exact Or.inr (List.mem_cons_of_mem _ h')
    | delimNL =>
      simp only [splitScan] at hp
      split at hp
      · rcases ih _ _ _ _ c hp hc with h' | h'
        · simp at h'
        · exact Or.inr (List.mem_cons_of_mem _ h')
      · rcases ih _ _ _ _ c hp hc with h' | h'
        · rcases List.mem_cons.mp h' with h'' | h''
          · exact Or.inr (by simp [h''])
          · simp at h''
        · exact Or.inr (List.mem_cons_of_mem _ h')

/-- `strip` yields the empty string exactly on all-whitespace input. -/
theorem pyStrip_eq_nil_iff (s : List Char) :
    pyStrip s = [] ↔ ∀ c ∈ s, pySpace c := by
  unfold pyStrip
  rw [List.reverse_eq_nil_iff, List.dropWhile_eq_nil_iff]
  constructor
  · intro h c hc
    have hsplit := List.takeWhile_append_dropWhile (p := pySpace) (l := s)
    rw [← hsplit] at hc
    rcases List.mem_append.mp hc with h' | h'
    · exact List.mem_takeWhile_imp h'
    · exact h c (by simpa using h')
  · intro h c hc
    rw [List.mem_reverse] at hc
    exact h c (List.dropWhile_subset _ hc)

/-- The packing loop never returns an empty list when the running buffer is
non-empty. -/
theorem chunkLoop_ne_nil (max_chars : Nat) :
    ∀ (sents : List (List Char)) (cur : List Char), cur ≠ [] →
      chunkLoop max_chars cur sents ≠ [] := by
  intro sents
  induction sents with
  | nil =>
    intro cur hcur
    simp [chunkLoop, List.isEmpty_iff, hcur]
  | cons sent rest ih =>
    intro cur hcur
    simp only [chunkLoop, List.isEmpty_iff, if_neg hcur]
    split
    · exact ih _ (by simp)
    · simp

/-- Unfolding lemma for `split_into_sentences`. -/
theorem split_into_sentences_eq (text : List Char) :
    split_into_sentences text =
      if (((splitRegexSplit text).map pyStrip).filter (fun p => !p.isEmpty)).isEmpty
      then [pyStrip text]
      else ((splitRegexSplit text).map pyStrip).filter (fun p => !p.isEmpty) := rfl

/-- C6 (amended): `chunk_text` returns a non-empty sequence exactly when the
input is non-empty after trimming; input that is empty after trimming
yields the empty sequence (not a one-element empty-string sequence). -/
theorem chunk_text_nonempty_iff (text : List Char) (max_chars : Nat) :
    (pyStrip text = [] → chunk_text text max_chars = []) ∧
    (pyStrip text ≠ [] → chunk_text text max_chars ≠ []) := by
  constructor
  · intro h
    have hall : ∀ c ∈ text, pySpace c := (pyStrip_eq_nil_iff text).mp h
    have hparts :
        ((splitRegexSplit text).map pyStrip).filter (fun p => !p.isEmpty) = [] := by
      rw [List.filter_eq_nil_iff]
      intro q hq
      rcases List.mem_map.mp hq with ⟨p, hp, rfl⟩
      have : pyStrip p = [] := by
        rw [pyStrip_eq_nil_iff]
        intro c hc
        rcases splitScan_chars text none ScanMode.part [] p c hp hc with h' | h'
        · simp at h'
        · exact hall c h'
      simp [this]
    unfold chunk_text
    rw [split_into_sentences_eq, hparts, h]
    simp [chunkLoop]
  · intro h
    unfold chunk_text
    rw [split_into_sentences_eq]
    rcases hparts :
        ((splitRegexSplit text).map pyStrip).filter (fun p => !p.isEmpty) with
      _ | ⟨q, rest'⟩
    · rw [hparts]
      have := chunkLoop_ne_nil max_chars [] (pyStrip text) h
      simpa [chunkLoop] using this
    · rw [hparts]
      have hq : q ≠ [] := by
        have hmem :
            q ∈ ((splitRegexSplit text).map pyStrip).filter (fun p => !p.isEmpty) := by
          rw [hparts]
          simp
        have := (List.mem_filter.mp hmem).2
        simpa [List.isEmpty_iff] using this
      have := chunkLoop_ne_nil max_chars rest' q hq
      simpa [chunkLoop] using this

/-- Witness for the amended C6: whitespace-only input gives `[]`, non-blank
input gives a non-empty chunk list. -/
theorem chunk_text_nonempty_iff_witness :
    chunk_text [' '] 240 = [] ∧ chunk_text ['a'] 240 ≠ [] :=
  ⟨(chunk_text_nonempty_iff [' '] 240).1 (by decide),
   (chunk_text_nonempty_iff ['a'] 240).2 (by decide)⟩

/-! ### Claim C7: content round-trip through segmentation

The common normal form of a string up to whitespace is its list of maximal
non-whitespace runs (`words`); `normalize_text` is exactly those words
joined by single spaces, and every operation of the segmenter preserves the
word list. -/

/-- Maximal non-whitespace runs of a string; `acc` holds the current run in
reverse. -/
def wordsAux (acc : List Char) : List Char → List (List Char)
  | [] => if acc.isEmpty then [] else [acc.reverse]
  | c :: cs =>
    if pySpace c then
      if acc.isEmpty then wordsAux [] cs else acc.reverse :: wordsAux [] cs
    else wordsAux (c :: acc) cs

/-- The words (maximal non-whitespace runs) of a string, in order. -/
def words (s : List Char) : List (List Char) := wordsAux [] s

/-- Join a list of strings with single spaces (the claim's joining
operation, also the join used inside `chunk_text`). -/
def joinSpace : List (List Char) → List Char
  | [] => []
  | [x] => x
  | x :: xs => x ++ ' ' :: joinSpace xs

theorem pySpace_blank : pySpace ' ' = true := by decide

theorem pySpace_newline : pySpace '\n' = true := by decide

theorem joinSpace_cons (x : List Char) (l : List (List Char)) (h : l ≠ []) :
    joinSpace (x :: l) = x ++ ' ' :: joinSpace l := by
  rcases l with _ | ⟨y, ys⟩
  · exact absurd rfl h
  · rfl

theorem wordsAux_nil (acc : List Char) :
    wordsAux acc [] = if acc.isEmpty then [] else [acc.reverse] := rfl

theorem wordsAux_cons (acc : List Char) (c : Char) (cs : List Char) :
    wordsAux acc (c :: cs) =
      if pySpace c then
        if acc.isEmpty then wordsAux [] cs else acc.reverse :: wordsAux [] cs
      else wordsAux (c :: acc) cs := rfl

/-- Consuming a non-empty whitespace run flushes the accumulator. -/
theorem wordsAux_space_run :
    ∀ (d : List Char), d ≠ [] → (∀ c ∈ d, pySpace c) →
      ∀ (acc y : List Char),
        wordsAux acc (d ++ y) =
          (if acc.isEmpty then [] else [acc.reverse]) ++ wordsAux [] y := by
  intro d
  induction d with
  | nil => intro h; exact absurd rfl h
  | cons c d' ih =>
    intro _ hall acc y
    have hc : pySpace c = true := hall c (by simp)
    rcases d' with _ | ⟨c2, d''⟩
    · simp only [List.cons_append, List.nil_append, wordsAux_cons, hc]
      by_cases hacc : acc.isEmpty <;> simp [hacc]
    · have hall' : ∀ x ∈ c2 :: d'', pySpace x := fun x hx => hall x (by simp [hx])
      have ih' := ih (by simp) hall' [] y
      simp only [List.cons_append, List.nil_append, List.isEmpty_nil, if_true,
        List.reverse_nil] at ih'
      simp only [List.cons_append]
      rw [wordsAux_cons, ih']
      by_cases hacc : acc.isEmpty <;> simp [hc, hacc]

/-- A non-empty all-whitespace block splits the word computation. -/
theorem wordsAux_append_space (d : List Char) (hd : d ≠ [])
    (hall : ∀ c ∈ d, pySpace c) :
    ∀ (x : List Char) (acc y : List Char),
      wordsAux acc (x ++ d ++ y) = wordsAux acc x ++ wordsAux [] y := by
  intro x
  induction x with
  | nil =>
    intro acc y
    simp only [List.nil_append]
    rw [wordsAux_space_run d hd hall acc y]
    rfl
  | cons c x' ih =>
    intro acc y
    simp only [List.cons_append, wordsAux_cons]
    by_cases hc : pySpace c
    · rw [ih [] y]
      by_cases hacc : acc.isEmpty <;> simp [hc, hacc]
    · rw [ih (c :: acc) y]
      simp [hc]

/-- Splitting at an all-whitespace block, stated for `words`. -/
theorem words_append_space (d : List Char) (hd : d ≠ [])
    (hall : ∀ c ∈ d, pySpace c) (x y : List Char) :
    words (x ++ d ++ y) = words x ++ words y :=
  wordsAux_append_space d hd hall x [] y

/-- Leading whitespace does not change the words. -/
theorem words_dropWhile (s : List Char) :
    words (s.dropWhile pySpace) = words s := by
  induction s with
  | nil => rfl
  | cons c cs ih =>
    by_cases hc : pySpace c
    · rw [List.dropWhile_cons]
      simp only [hc, if_true]
      rw [ih]
      simp [words, wordsAux, hc]
    · rw [List.dropWhile_cons]
      simp [hc]

/-- Trailing whitespace does not change the words. -/
theorem words_append_trailing (x d : List Char) (hall : ∀ c ∈ d, pySpace c) :
    words (x ++ d) = words x := by
  rcases d with _ | ⟨c, d'⟩
  · simp
  · have h := words_append_space (c :: d') (by simp) hall x []
    simpa [words, wordsAux] using h

/-- `strip` only removes whitespace at the two ends: the stripped string plus
an all-whitespace tail reconstructs the left-trimmed string. -/
theorem pyStrip_decomp (s : List Char) :
    ∃ d : List Char, (∀ c ∈ d, pySpace c) ∧
      s.dropWhile pySpace = pyStrip s ++ d := by
  refine ⟨((s.dropWhile pySpace).reverse.takeWhile pySpace).reverse, ?_, ?_⟩
  · intro c hc
    rw [List.mem_reverse] at hc
    exact List.mem_takeWhile_imp hc
  · unfold pyStrip
    have h1 : (s.dropWhile pySpace).reverse =
        (s.dropWhile pySpace).reverse.takeWhile pySpace ++
          (s.dropWhile pySpace).reverse.dropWhile pySpace :=
      (List.takeWhile_append_dropWhile (p := pySpace)
        (l := (s.dropWhile pySpace).reverse)).symm
    calc s.dropWhile pySpace
        = (s.dropWhile pySpace).reverse.reverse := (List.reverse_reverse _).symm
      _ = ((s.dropWhile pySpace).reverse.takeWhile pySpace ++
            (s.dropWhile pySpace).reverse.dropWhile pySpace).reverse :=
          congrArg List.reverse h1
      _ = ((s.dropWhile pySpace).reverse.dropWhile pySpace).reverse ++
            ((s.dropWhile pySpace).reverse.takeWhile pySpace).reverse := by
          rw [List.reverse_append]

/-- Stripping does not change the words. -/
theorem words_pyStrip (s : List Char) : words (pyStrip s) = words s := by
  obtain ⟨d, hall, hd⟩ := pyStrip_decomp s
  have h1 : words (s.dropWhile pySpace) = words s := words_dropWhile s
  rw [hd] at h1
  rw [← h1, words_append_trailing _ d hall]

/-- No trailing whitespace. -/
def noTrailSpace (s : List Char) : Prop :=
  ∀ c, s.getLast? = some c → pySpace c = false

theorem noTrailSpace_tail {c : Char} {cs : List Char}
    (h : noTrailSpace (c :: cs)) : noTrailSpace cs := by
  rcases cs with _ | ⟨c2, cs'⟩
  · intro x hx
    simp at hx
  · intro x hx
    exact h x (by rwa [List.getLast?_cons_cons])

/-- The head of a `dropWhile pySpace` result is never whitespace. -/
theorem head_dropWhile_not_space :
    ∀ (l : List Char) (c : Char), (l.dropWhile pySpace).head? = some c →
      pySpace c = false := by
  intro l
  induction l with
  | nil => intro c hc; simp at hc
  | cons a l' ih =>
    intro c hc
    rw [List.dropWhile_cons] at hc
    by_cases ha : pySpace a
    · rw [if_pos ha] at hc
      exact ih c hc
    · rw [if_neg ha] at hc
      simp at hc
      subst hc
      simpa using ha

/-- A word accumulator in progress always produces at least one word. -/
theorem wordsAux_ne_nil_of_acc :
    ∀ (cs acc : List Char), acc ≠ [] → wordsAux acc cs ≠ [] := by
  intro cs
  induction cs with
  | nil =>
    intro acc hacc
    simp [wordsAux, List.isEmpty_iff, hacc]
  | cons c cs' ih =>
    intro acc hacc
    simp only [wordsAux]
    by_cases hc : pySpace c
    · simp [hc, List.isEmpty_iff, hacc]
    · simp only [hc, Bool.false_eq_true, if_false]
      exact ih (c :: acc) (by simp)

/-- A string containing a non-whitespace character has at least one word. -/
theorem words_ne_nil (cs : List Char) (x : Char) (hx : x ∈ cs)
    (hxs : pySpace x = false) : words cs ≠ [] := by
  unfold words
  induction cs with
  | nil => simp at hx
  | cons c cs' ih =>
    simp only [wordsAux]
    by_cases hc : pySpace c
    · have hxcs' : x ∈ cs' := by
        rcases List.mem_cons.mp hx with h | h
        · subst h; rw [hc] at hxs; simp at hxs
        · exact h
      simp only [hc, if_true, List.isEmpty_nil, if_true]
      exact ih hxcs'
    · simp only [hc, Bool.false_eq_true, if_false]
      exact wordsAux_ne_nil_of_acc cs' [c] (by simp)

theorem collapseAux_cons (b : Bool) (c : Char) (cs : List Char) :
    collapseAux b (c :: cs) =
      if pySpace c then
        if b then collapseAux true cs else ' ' :: collapseAux true cs
      else c :: collapseAux false cs := rfl

theorem exists_getLast (l : List Char) (h : l ≠ []) :
    ∃ x, l.getLast? = some x := by
  rcases l with _ | ⟨q, qs⟩
  · exact absurd rfl h
  · exact ⟨(q :: qs).getLast (by simp), List.getLast?_eq_getLast _ _⟩

/-- Core correspondence on strings with no trailing whitespace: collapsing
whitespace runs (in-run state `true`) equals joining the words with single
spaces, and with a non-empty accumulator the pending word is emitted in
front of the `false`-state collapse. -/
theorem collapse_words_core :
    ∀ (N : Nat) (s : List Char), s.length ≤ N → noTrailSpace s →
      (collapseAux true s = joinSpace (wordsAux [] s)) ∧
      (∀ acc : List Char, acc ≠ [] →
        joinSpace (wordsAux acc s) = acc.reverse ++ collapseAux false s) := by
  intro N
  induction N with
  | zero =>
    intro s hs _
    have hnil : s = [] := List.length_eq_zero.mp (Nat.le_zero.mp hs)
    subst hnil
    refine ⟨rfl, ?_⟩
    intro acc hacc
    rw [wordsAux_nil]
    simp [List.isEmpty_iff, hacc, joinSpace, collapseAux]
  | succ N ihN =>
    intro s hs hnt
    rcases s with _ | ⟨c, cs⟩
    · refine ⟨rfl, ?_⟩
      intro acc hacc
      rw [wordsAux_nil]
      simp [List.isEmpty_iff, hacc, joinSpace, collapseAux]
    · have hcs_len : cs.length ≤ N := by
        simpa using hs
      have hnt' : noTrailSpace cs := noTrailSpace_tail hnt
      constructor
      · by_cases hc : pySpace c
        · have hcs_ne : cs ≠ [] := by
            rintro rfl
            have hlast := hnt c (by simp)
            rw [hc] at hlast
            simp at hlast
          rw [collapseAux_cons, wordsAux_cons]
          simp only [hc, if_true, List.isEmpty_nil]
          exact (ihN cs hcs_len hnt').1
        · have hgw := (ihN cs hcs_len hnt').2 [c] (by simp)
          rw [collapseAux_cons, wordsAux_cons]
          simp only [hc, Bool.false_eq_true, if_false]
          rw [hgw]
          simp
      · intro acc hacc
        have haccb : acc.isEmpty = false := by
          simp [List.isEmpty_iff, hacc]
        by_cases hc : pySpace c
        · have hcs_ne : cs ≠ [] := by
            rintro rfl
            have hlast := hnt c (by simp)
            rw [hc] at hlast
            simp at hlast
          obtain ⟨x, hx⟩ := exists_getLast cs hcs_ne
          have hxs : pySpace x = false := hnt' x hx
          have hxmem : x ∈ cs := List.mem_of_getLast?_eq_some hx
          have hwne : wordsAux [] cs ≠ [] := words_ne_nil cs x hxmem hxs
          have hgt := (ihN cs hcs_len hnt').1
          rw [wordsAux_cons]
          simp only [hc, if_true, haccb, Bool.false_eq_true, if_false]
          rw [joinSpace_cons _ _ hwne, ← hgt, collapseAux_cons]
          simp only [hc, if_true, Bool.false_eq_true, if_false]
        · have hgw := (ihN cs hcs_len hnt').2 (c :: acc) (by simp)
          rw [wordsAux_cons]
          simp only [hc, Bool.false_eq_true, if_false]
          rw [hgw, collapseAux_cons]
          simp only [hc, Bool.false_eq_true, if_false]
          simp [List.reverse_cons, List.append_assoc]

/-- `normalize_text` is exactly the words joined by single spaces. -/
theorem normalize_eq_joinSpace_words (s : List Char) :
    normalize_text s = joinSpace (words s) := by
  have hw : words (pyStrip s) = words s := words_pyStrip s
  unfold normalize_text collapseWS
  rcases hsp : pyStrip s with _ | ⟨c, cs⟩
  · rw [hsp] at hw
    rw [← hw]
    rfl
  · have hnt : noTrailSpace (pyStrip s) := by
      intro x hx
      unfold pyStrip at hx
      rw [List.getLast?_reverse] at hx
      exact head_dropWhile_not_space _ x hx
    rw [hsp] at hnt hw
    have hc : pySpace c = false := by
      have hhead : ((s.dropWhile pySpace).head?) = some c := by
        obtain ⟨d, _, hd⟩ := pyStrip_decomp s
        rw [hd, hsp]
        rfl
      exact head_dropWhile_not_space s c hhead
    have hgw := (collapse_words_core cs.length cs le_rfl
      (noTrailSpace_tail hnt)).2 [c] (by simp)
    rw [← hw]
    unfold words
    rw [collapseAux_cons, wordsAux_cons]
    simp only [hc, Bool.false_eq_true, if_false]
    rw [hgw]
    simp

/-- The words of a space-joined list are the concatenation of the words of
its entries. -/
theorem words_joinSpace (l : List (List Char)) :
    words (joinSpace l) = (l.map words).flatten := by
  induction l with
  | nil => rfl
  | cons x xs ih =>
    rcases xs with _ | ⟨y, ys⟩
    · simp [joinSpace]
    · rw [joinSpace_cons x _ (by simp)]
      have hsplit := words_append_space [' '] (by simp)
        (by intro c hc; simp at hc; subst hc; exact pySpace_blank)
        x (joinSpace (y :: ys))
      have hshape : x ++ ' ' :: joinSpace (y :: ys) =
          x ++ [' '] ++ joinSpace (y :: ys) := by simp
      rw [hshape, hsplit, ih]
      simp

/-- The words of the original text are recovered, in order, from the raw
parts of the regex split: the dropped separators are all whitespace. -/
theorem splitScan_words :
    ∀ (cs : List Char) (prev : Option Char) (mode : ScanMode) (acc : List Char),
      (mode ≠ ScanMode.part → acc = []) →
      (((splitScan prev mode acc cs).map words).flatten) =
        words (acc.reverse ++ cs) := by
  intro cs
  induction cs with
  | nil =>
    intro prev mode acc _
    simp [splitScan, words]
  | cons c cs' ih =>
    intro prev mode acc hacc
    cases mode with
    | part =>
      simp only [splitScan]
      by_cases h1 : prevIsPunct prev && pySpace c
      · rw [if_pos h1]
        have hsp : pySpace c = true := by
          have h1' := h1
          simp only [Bool.and_eq_true] at h1'
          exact h1'.2
        simp only [List.map_cons, List.flatten_cons]
        rw [ih (some c) ScanMode.delimWS [] (fun _ => rfl)]
        have hshape : acc.reverse ++ c :: cs' = acc.reverse ++ [c] ++ cs' := by
          simp
        rw [hshape, words_append_space [c] (by simp)
          (by intro z hz; simp at hz; subst hz; exact hsp)]
        simp
      · rw [if_neg (by simpa using h1)]
        by_cases h2 : c = '\n'
        · rw [if_pos h2]
          subst h2
          simp only [List.map_cons, List.flatten_cons]
          rw [ih (some '\n') ScanMode.delimNL [] (fun _ => rfl)]
          have hshape : acc.reverse ++ '\n' :: cs' = acc.reverse ++ ['\n'] ++ cs' := by
            simp
          rw [hshape, words_append_space ['\n'] (by simp)
            (by intro z hz; simp at hz; subst hz; exact pySpace_newline)]
          simp
        · rw [if_neg h2]
          rw [ih (some c) ScanMode.part (c :: acc) (by intro h; exact absurd rfl h)]
          simp
    | delimWS =>
      have haccnil : acc = [] := hacc (by intro h; cases h)
      subst haccnil
      simp only [splitScan]
      by_cases h1 : pySpace c
      · rw [if_pos h1]
        rw [ih (some c) ScanMode.delimWS [] (fun _ => rfl)]
        simp only [List.reverse_nil, List.nil_append]
        unfold words
        rw [wordsAux_cons]
        simp [h1]
      · rw [if_neg h1]
        rw [ih (some c) ScanMode.part [c] (by intro h; exact absurd rfl h)]
        simp
    | delimNL =>
      have haccnil : acc = [] := hacc (by intro h; cases h)
      subst haccnil
      simp only [splitScan]
      by_cases h1 : c = '\n'
      · rw [if_pos h1]
        subst h1
        rw [ih (some '\n') ScanMode.delimNL [] (fun _ => rfl)]
        simp only [List.reverse_nil, List.nil_append]
        unfold words
        rw [wordsAux_cons]
        simp [pySpace_newline]
      · rw [if_neg h1]
        rw [ih (some c) ScanMode.part [c] (by intro h; exact absurd rfl h)]
        simp

/-- Dropping empty entries does not change the concatenated words. -/
theorem flatten_words_filter (l : List (List Char)) :
    (((l.filter (fun p => !p.isEmpty)).map words).flatten) =
      ((l.map words).flatten) := by
  induction l with
  | nil => rfl
  | cons q l' ih =>
    by_cases hq : q.isEmpty
    · have hqnil : q = [] := List.isEmpty_iff.mp hq
      subst hqnil
      simp only [List.filter_cons]
      simp [ih, words, wordsAux]
    · simp only [List.filter_cons]
      simp only [hq, Bool.not_false]
      simp [ih]

/-- The sentences of a text carry exactly the words of the text. -/
theorem sentences_words (text : List Char) :
    (((split_into_sentences text).map words).flatten) = words text := by
  rw [split_into_sentences_eq]
  split
  · simp [words_pyStrip]
  · rw [flatten_words_filter]
    have hmap : ((splitRegexSplit text).map pyStrip).map words =
        (splitRegexSplit text).map words := by
      rw [List.map_map]
      exact List.map_congr_left (fun p _ => words_pyStrip p)
    rw [hmap]
    have h := splitScan_words text none ScanMode.part []
      (by intro h; exact absurd rfl h)
    simpa using h

/-- The chunks produced by the packing loop carry exactly the words of the
buffer followed by the words of the remaining sentences. -/
theorem chunkLoop_words (max_chars : Nat) :
    ∀ (sents : List (List Char)) (cur : List Char),
      (((chunkLoop max_chars cur sents).map words).flatten) =
        words cur ++ ((sents.map words).flatten) := by
  intro sents
  induction sents with
  | nil =>
    intro cur
    by_cases hcur : cur.isEmpty
    · have : cur = [] := List.isEmpty_iff.mp hcur
      subst this
      simp [chunkLoop, words, wordsAux]
    · simp [chunkLoop, hcur]
  | cons sent rest ih =>
    intro cur
    by_cases hcur : cur.isEmpty
    · have : cur = [] := List.isEmpty_iff.mp hcur
      subst this
      simp only [chunkLoop, List.isEmpty_nil, if_true]
      rw [ih sent]
      simp [words, wordsAux]
    · simp only [chunkLoop, hcur, Bool.false_eq_true, if_false]
      split
      · rw [ih (cur ++ ' ' :: sent)]
        have hshape : cur ++ ' ' :: sent = cur ++ [' '] ++ sent := by simp
        rw [hshape, words_append_space [' '] (by simp)
          (by intro z hz; simp at hz; subst hz; exact pySpace_blank)]
        simp
      · simp only [List.map_cons, List.flatten_cons]
        rw [ih sent]

/-- C7: joining the segments returned by `chunk_text` with single spaces and
then normalizing (collapsing whitespace runs and trimming) reproduces the
normalized input text, for every input text and every `max_chars`. -/
theorem chunk_text_roundtrip (text : List Char) (max_chars : Nat) :
    normalize_text (joinSpace (chunk_text text max_chars)) = normalize_text text := by
  rw [normalize_eq_joinSpace_words, normalize_eq_joinSpace_words text]
  rw [words_joinSpace]
  unfold chunk_text
  rw [chunkLoop_words, sentences_words]
  rfl

/-! ### Voice/language presets (C9, C10) -/

/-- The four named preset flags, in the source's fixed iteration order. -/
inductive PresetKey where
  | en_f
  | en_m
  | zh_f
  | zh_m
deriving DecidableEq

/-- `PRESETS` (src/main.py:7-12). -/
def PRESETS : PresetKey → String × String
  | PresetKey.en_f => ("af_sarah", "en-us")
  | PresetKey.en_m => ("am_adam", "en-us")
  | PresetKey.zh_f => ("zf_xiaoxiao", "cmn")
  | PresetKey.zh_m => ("zm_yunjian", "cmn")

/-- The argparse results consumed by `choose_preset`: `--voice`/`--lang` are
absent (`None`) or a string, the four preset flags are booleans. -/
structure Args where
  voice : Option String
  lang : Option String
  en_f : Bool
  en_m : Bool
  zh_f : Bool
  zh_m : Bool

/-- Python truthiness of an optional string (`None` and `""` are falsy). -/
def pyTruthy : Option String → Bool
  | none => false
  | some s => decide (s ≠ "")

/-- `x if x else dflt` for an optional string. -/
def pyOr (o : Option String) (dflt : String) : String :=
  match o with
  | some v => if v = "" then dflt else v
  | none => dflt

/-- `choose_preset(text, args)` (src/main.py:68-80): start from the `en_f`
preset, run the `for key in ("en_f","en_m","zh_f","zh_m")` overwrite loop,
apply CJK auto-detection only when no preset flag and no (truthy)
`--voice`/`--lang` was given, then apply the explicit `--voice`/`--lang`
overrides. -/
def choose_preset (text : List Char) (args : Args) : String × String :=
  let vl := PRESETS PresetKey.en_f
  let vl := if args.en_f then PRESETS PresetKey.en_f else vl
  let vl := if args.en_m then PRESETS PresetKey.en_m else vl
  let vl := if args.zh_f then PRESETS PresetKey.zh_f else vl
  let vl := if args.zh_m then PRESETS PresetKey.zh_m else vl
  let vl :=
    if !(args.en_f || args.en_m || args.zh_f || args.zh_m) &&
        !pyTruthy args.voice && !pyTruthy args.lang then
      if contains_cjk text then PRESETS PresetKey.zh_f else vl
    else vl
  (pyOr args.voice vl.1, pyOr args.lang vl.2)

/-- The preset selected by the source's overwrite loop: the last set flag in
the iteration order `en_f, en_m, zh_f, zh_m` wins. -/
def lastFlag (args : Args) : Option PresetKey :=
  if args.zh_m then some PresetKey.zh_m
  else if args.zh_f then some PresetKey.zh_f
  else if args.en_m then some PresetKey.en_m
  else if args.en_f then some PresetKey.en_f
  else none

/-- Modelled from the spec's stated precedence (refinement target, written
from the spec's words, not from the code): explicit voice/language flags
override any named preset; a named preset overrides script auto-detection;
auto-detection (CJK text resolves to the Chinese-female preset) applies only
when no explicit flag and no preset flag is given; otherwise the
English-female preset is the hard fallback. -/
def resolve_spec (text : List Char) (args : Args) : String × String :=
  let base :=
    match lastFlag args with
    | some k => PRESETS k
    | none =>
      if !pyTruthy args.voice && !pyTruthy args.lang && contains_cjk text then
        PRESETS PresetKey.zh_f
      else PRESETS PresetKey.en_f
  (pyOr args.voice base.1, pyOr args.lang base.2)

/-- C9: the source's `choose_preset` implements exactly the spec's
resolution precedence, for every text and argument combination; the
resolved pair is a pure function of the invocation (fixed once per run). -/
theorem choose_preset_precedence (text : List Char) (args : Args) :
    choose_preset text args = resolve_spec text args := by
  obtain ⟨v, l, f1, f2, f3, f4⟩ := args
  cases f1 <;> cases f2 <;> cases f3 <;> cases f4 <;>
    cases hv : pyTruthy v <;> cases hl : pyTruthy l <;>
      cases hc : contains_cjk text <;>
        simp [choose_preset, resolve_spec, lastFlag, hv, hl, hc]

/-- C10: with several preset flags set (and no explicit voice/language
flag), the resolved pair is the preset of the last set flag in the fixed
iteration order `en_f, en_m, zh_f, zh_m`. -/
theorem choose_preset_last_flag_wins (text : List Char) (args : Args)
    (k : PresetKey) (hv : args.voice = none) (hl : args.lang = none)
    (hk : lastFlag args = some k) :
    choose_preset text args = PRESETS k := by
  obtain ⟨v, l, f1, f2, f3, f4⟩ := args
  simp only at hv hl
  subst hv
  subst hl
  cases f1 <;> cases f2 <;> cases f3 <;> cases f4 <;>
    simp_all [choose_preset, lastFlag, pyTruthy, pyOr]

/-- Witness for C10: `--en_m --zh_f` together resolve to the Chinese-female
preset (`zh_f` is later in the iteration order than `en_m`). -/
theorem choose_preset_last_flag_wins_witness :
    choose_preset ['h', 'i'] ⟨none, none, false, true, true, false⟩ =
      PRESETS PresetKey.zh_f :=
  choose_preset_last_flag_wins ['h', 'i'] ⟨none, none, false, true, true, false⟩
    PresetKey.zh_f rfl rfl rfl

/-! ### Audio concatenation (C8) -/

/-- The two errors `concat_wavs` can raise: `ValueError("No WAVs to
concatenate")` and `RuntimeError("Inconsistent WAV params; cannot
concatenate")`. -/
inductive WavError where
  | emptyInput
  | formatMismatch
deriving DecidableEq

/-- The format part of the `wave` parameters: sample rate, channel count,
sample width and compression. -/
structure WavFormat where
  nchannels : Nat
  sampwidth : Nat
  framerate : Nat
  comptype : Nat
deriving DecidableEq

/-- A WAV file: its format and its frame data, one entry per frame. -/
structure WavFile where
  format : WavFormat
  frames : List Nat
deriving DecidableEq

/-- `wave.getparams()`: the format together with `nframes` (the `wave`
module reports the frame count as part of the parameter tuple). -/
def getparams (w : WavFile) : WavFormat × Nat := (w.format, w.frames.length)

/-- The read-and-check loop of `concat_wavs` over `infiles[1:]`: raise on
the first file whose `getparams()` differs from the first file's, otherwise
collect frame data in order. -/
def concatLoop (params : WavFormat × Nat) :
    List WavFile → Except WavError (List Nat)
  | [] => Except.ok []
  | wf :: rest =>
    if getparams wf = params then
      match concatLoop params rest with
      | Except.ok frs => Except.ok (wf.frames ++ frs)
      | Except.error e => Except.error e
    else Except.error WavError.formatMismatch

/-- `concat_wavs(infiles, outfile)` (src/main.py:52-66): error on an empty
list, error on any parameter mismatch against the first file, otherwise
write the ordered concatenation of all frame data with the first file's
format (the `wave` module recomputes `nframes` from the written data). -/
def concat_wavs : List WavFile → Except WavError WavFile
  | [] => Except.error WavError.emptyInput
  | w0 :: rest =>
    match concatLoop (getparams w0) rest with
    | Except.ok frs => Except.ok ⟨w0.format, w0.frames ++ frs⟩
    | Except.error e => Except.error e

/-- One-frame and two-frame files with the same format. -/
def wavA : WavFile := ⟨⟨1, 2, 24000, 0⟩, [7]⟩

def wavB : WavFile := ⟨⟨1, 2, 24000, 0⟩, [8, 9]⟩

/-- C8 (code bug): the code compares full `getparams()` tuples, which
include `nframes`, so two files with identical audio format parameters but
different lengths are rejected with the format-mismatch error instead of
being concatenated — yet the program's own save path feeds `concat_wavs`
variable-length chunks.  Evaluation at the failing input: `wavA` and `wavB`
share the format, and concatenation errors out. -/
theorem concat_wavs_nframes_mismatch :
    wavA.format = wavB.format ∧
    concat_wavs [wavA, wavB] = Except.error WavError.formatMismatch := by
  exact ⟨rfl, rfl⟩

/-! ### The prefetch streaming pipeline (C1-C4)

`stream_with_prefetch(chunks, voice, lang)` (src/main.py:100-168) is
embedded as a function of the number of chunks `n` and an oracle for the
external collaborators, producing the sequence of observable events in
foreground program order together with the exit outcome.  Chunks are
1-indexed as in the user-facing messages.  The oracle views:

* `streamRC i`  — return code of `run_kokoro(chunks[i-1], None, …)`,
* `synthRC i`   — return code of the background `synth_to_wav` for chunk `i`
  (the future's result; note the code never inspects it),
* `synthCreates i` — whether that call left a file at its `wav_path`
  (the `os.path.exists` check),
* `playRC i`    — return code of `play_wav(player, wavs[i-1])`,
* `playerAvailable` — whether `find_player()` returned a player.

File-system writes/removes are assumed to succeed (the cleanup is wrapped
in `try/except` and modelled on its success path). -/

structure Oracle where
  streamRC : Nat → Int
  synthRC : Nat → Int
  synthCreates : Nat → Bool
  playRC : Nat → Int
  playerAvailable : Bool

/-- Observable pipeline events, in foreground program order.  A background
synthesis is `submit`ted (`executor.submit` inside `prefetch`) and later
`awaitFut`ed (`fut.result()`).  `stream i` is the blocking direct-stream
call for chunk `i`; `playFile i` plays chunk `i`'s prefetched wav. -/
inductive Event where
  | mkdirTemp
  | submit (chunk : Nat)
  | awaitFut (chunk : Nat)
  | stream (chunk : Nat)
  | playFile (chunk : Nat)
  | deleteFile (chunk : Nat)
  | removeDir
deriving DecidableEq

/-- Exit outcome of a run: `ok`, or the `sys.exit` diagnostics (each names
the failing chunk and carries a non-zero process status), or the
`IndexError` a zero-chunk input raises at `chunks[0]`. -/
inductive RunExit where
  | ok
  | ttsFailed (chunk : Nat) (code : Int)
  | prefetchMissing (chunk : Nat)
  | playbackFailed (chunk : Nat) (code : Int)
  | indexError
deriving DecidableEq

/-- The fallback loop (src/main.py:110-116): `for i, ch in
enumerate(chunks, 1)` stream each chunk directly, exiting on the first
non-zero return code. -/
def fallbackLoop (o : Oracle) : List Nat → List Event × RunExit
  | [] => ([], RunExit.ok)
  | i :: rest =>
    if o.streamRC i ≠ 0 then ([Event.stream i], RunExit.ttsFailed i (o.streamRC i))
    else
      let r := fallbackLoop o rest
      (Event.stream i :: r.1, r.2)

/-- The drain loop (src/main.py:139-154) over the 1-based chunk indices
`2..n` (Python's `for i in range(1, n)` over 0-based indices).  Each
iteration: `fut.result()` — whose return value, chunk `i`'s synthesis exit
code, is discarded — then the `os.path.exists` check (`wavs[i]` is always
set here, since `prefetch` ran for every index below `n`), then
`prefetch(i + 1)` (which submits chunk `i+1` only when `i + 1 <= n`), then
the blocking playback of chunk `i`. -/
def drainLoop (o : Oracle) (n : Nat) : List Nat → List Event × RunExit
  | [] => ([], RunExit.ok)
  | i :: rest =>
    if o.synthCreates i = false then
      ([Event.awaitFut i], RunExit.prefetchMissing i)
    else
      let evs := Event.awaitFut i ::
        ((if i + 1 ≤ n then [Event.submit (i + 1)] else []) ++ [Event.playFile i])
      if o.playRC i ≠ 0 then (evs, RunExit.playbackFailed i (o.playRC i))
      else
        let r := drainLoop o n rest
        (evs ++ r.1, r.2)

/-- The body of the `try`/`with` block on the prefetching path
(src/main.py:129-158, `n ≥ 2`): `prefetch(1, pool)` submits chunk 2, chunk
1 is streamed directly (exit on non-zero code), the drain loop runs over
chunks `2..n`, and on normal completion `futures[-1].result()` waits again
on chunk `n`'s future (always set when the loop completed). -/
def mainBody (o : Oracle) (n : Nat) : List Event × RunExit :=
  if o.streamRC 1 ≠ 0 then
    ([Event.submit 2, Event.stream 1], RunExit.ttsFailed 1 (o.streamRC 1))
  else
    let r := drainLoop o n (List.range' 2 (n - 1))
    match r.2 with
    | RunExit.ok =>
      (Event.submit 2 :: Event.stream 1 :: (r.1 ++ [Event.awaitFut n]), RunExit.ok)
    | e => (Event.submit 2 :: Event.stream 1 :: r.1, e)

/-- The `finally` cleanup (src/main.py:160-168), on its success path: `for p
in wavs` in index order (`wavs[idx]` is set exactly when `prefetch(idx)`
submitted chunk `idx + 1`; the file exists exactly when that synthesis
created it — the pool's shutdown has joined any still-pending task), remove
each existing file, then remove the directory. -/
def cleanupEvents (o : Oracle) (n : Nat) (tr : List Event) : List Event :=
  (((List.range n).filter (fun idx =>
      decide (Event.submit (idx + 1) ∈ tr) && o.synthCreates (idx + 1))).map
    (fun idx => Event.deleteFile (idx + 1))) ++ [Event.removeDir]

/-- `stream_with_prefetch(chunks, voice, lang)` (src/main.py:100-168) for a
chunk list of length `n`: the fallback path when no player is available or
`n = 1` (no temp directory, no prefetch), otherwise `tempfile.mkdtemp`, the
prefetching body (`chunks[0]` raises `IndexError` when `n = 0`), and the
`finally` cleanup on every exit path. -/
def stream_with_prefetch (o : Oracle) (n : Nat) : List Event × RunExit :=
  if o.playerAvailable = false ∨ n = 1 then
    fallbackLoop o (List.range' 1 n)
  else
    let body := if n = 0 then ([], RunExit.indexError) else mainBody o n
    let run := Event.mkdirTemp :: body.1
    (run ++ cleanupEvents o n run, body.2)

/-- The oracle of C1's failing input: the background synthesis of chunk 2
reports exit code 1 but still creates its wav file; everything else
succeeds and a player is available. -/
def oracleC1 : Oracle :=
  ⟨fun _ => 0, fun i => if i = 2 then 1 else 0, fun _ => true, fun _ => 0, true⟩

/-- C1 (code bug): with `n = 2` and the background synthesis of chunk 2
failing with a non-zero status (file still present), the run does NOT
abort: chunk 2 is played and the process exits successfully.  The loop's
`fut.result()` discards `synth_to_wav`'s return code even though the
adjacent comment says `# raise if failed`; only the file-existence check
can abort.  The claim (and src/main.py:142's stated intent) requires an
immediate abort with a non-zero status naming chunk 2. -/
theorem prefetch_failure_rc_ignored :
    oracleC1.synthRC 2 = 1 ∧
    Event.playFile 2 ∈ (stream_with_prefetch oracleC1 2).1 ∧
    (stream_with_prefetch oracleC1 2).2 = RunExit.ok := by decide

/-- Every event of the fallback loop is a direct-stream event for one of
the listed chunks. -/
theorem fallbackLoop_events (o : Oracle) :
    ∀ (is : List Nat) (e : Event), e ∈ (fallbackLoop o is).1 →
      ∃ i, i ∈ is ∧ e = Event.stream i := by
  intro is
  induction is with
  | nil => intro e he; simp [fallbackLoop] at he
  | cons i rest ih =>
    intro e he
    simp only [fallbackLoop] at he
    split at he
    · simp at he
      exact ⟨i, by simp, he⟩
    · rcases List.mem_cons.mp he with h | h
      · exact ⟨i, by simp, h⟩
      · obtain ⟨j, hj, hje⟩ := ih e h
        exact ⟨j, by simp [hj], hje⟩

/-- When every direct-stream call succeeds the fallback loop streams every
chunk in order and exits cleanly. -/
theorem fallbackLoop_success (o : Oracle) (hs : ∀ i, o.streamRC i = 0) :
    ∀ is : List Nat, fallbackLoop o is = (is.map Event.stream, RunExit.ok) := by
  intro is
  induction is with
  | nil => rfl
  | cons i rest ih =>
    simp only [fallbackLoop, hs i, ih]
    simp

/-- C4: when no player is available or there is exactly one segment, the
pipeline falls back completely: every observed event is a direct-stream
event (so no prefetch submission, no temporary directory or file event —
in particular a 1-segment streaming run creates no temporary workspace),
and when every synthesis succeeds the chunks `1..n` are streamed in index
order with a clean exit. -/
theorem fallback_total (o : Oracle) (n : Nat)
    (h : o.playerAvailable = false ∨ n = 1) :
    (∀ e ∈ (stream_with_prefetch o n).1, ∃ i, 1 ≤ i ∧ i ≤ n ∧ e = Event.stream i) ∧
    ((∀ i, o.streamRC i = 0) →
      stream_with_prefetch o n = ((List.range' 1 n).map Event.stream, RunExit.ok)) := by
  have hsel : stream_with_prefetch o n = fallbackLoop o (List.range' 1 n) := by
    unfold stream_with_prefetch
    rw [if_pos h]
  constructor
  · intro e he
    rw [hsel] at he
    obtain ⟨i, hi, hie⟩ := fallbackLoop_events o (List.range' 1 n) e he
    rw [List.mem_range'] at hi
    obtain ⟨k, hk, rfl⟩ := hi
    exact ⟨1 + 1 * k, by omega, by omega, hie⟩
  · intro hs
    rw [hsel]
    exact fallbackLoop_success o hs (List.range' 1 n)

/-- Witness for C4 at `n = 1` with a player available (the one-segment
degenerate path): only stream events, and the successful run is exactly
`[stream 1]`. -/
theorem fallback_total_witness :
    (∀ e ∈ (stream_with_prefetch ⟨fun _ => 0, fun _ => 0, fun _ => true,
        fun _ => 0, true⟩ 1).1,
      ∃ i, 1 ≤ i ∧ i ≤ 1 ∧ e = Event.stream i) ∧
    ((∀ i, (⟨fun _ => 0, fun _ => 0, fun _ => true, fun _ => 0, true⟩ :
        Oracle).streamRC i = 0) →
      stream_with_prefetch ⟨fun _ => 0, fun _ => 0, fun _ => true,
        fun _ => 0, true⟩ 1 =
        ((List.range' 1 1).map Event.stream, RunExit.ok)) :=
  fallback_total ⟨fun _ => 0, fun _ => 0, fun _ => true, fun _ => 0, true⟩ 1
    (Or.inr rfl)

/-! ### Successful runs of the prefetching path (used by C2, C3) -/

/-- The all-success oracle: a player is available and every external call
succeeds. -/
def oracleOK : Oracle :=
  ⟨fun _ => 0, fun _ => 0, fun _ => true, fun _ => 0, true⟩

/-- The foreground events of one successful drain-loop iteration for
chunk `i`. -/
def block (n i : Nat) : List Event :=
  Event.awaitFut i ::
    ((if i + 1 ≤ n then [Event.submit (i + 1)] else []) ++ [Event.playFile i])

/-- Under a succeeding oracle the drain loop runs every listed iteration
and exits cleanly. -/
theorem drainLoop_success (o : Oracle) (n : Nat)
    (hcre : ∀ i, o.synthCreates i = true) (hplay : ∀ i, o.playRC i = 0) :
    ∀ is : List Nat, drainLoop o n is = (is.flatMap (block n), RunExit.ok) := by
  intro is
  induction is with
  | nil => rfl
  | cons i rest ih =>
    simp [drainLoop, hcre i, hplay i, ih, block]

/-- The successful prefetching body. -/
theorem mainBody_success (o : Oracle) (n : Nat)
    (hstream : ∀ i, o.streamRC i = 0) (hcre : ∀ i, o.synthCreates i = true)
    (hplay : ∀ i, o.playRC i = 0) :
    mainBody o n =
      (Event.submit 2 :: Event.stream 1 ::
        (((List.range' 2 (n - 1)).flatMap (block n)) ++ [Event.awaitFut n]),
       RunExit.ok) := by
  unfold mainBody
  rw [drainLoop_success o n hcre hplay]
  simp [hstream]

/-- The trace of a successful `n ≥ 2` prefetching run, before cleanup. -/
def successRun (n : Nat) : List Event :=
  Event.mkdirTemp :: Event.submit 2 :: Event.stream 1 ::
    (((List.range' 2 (n - 1)).flatMap (block n)) ++ [Event.awaitFut n])

/-- A successful `n ≥ 2` run produces the explicit trace plus cleanup. -/
theorem stream_with_prefetch_success (o : Oracle) (n : Nat) (hn : 2 ≤ n)
    (hp : o.playerAvailable = true) (hstream : ∀ i, o.streamRC i = 0)
    (hcre : ∀ i, o.synthCreates i = true) (hplay : ∀ i, o.playRC i = 0) :
    stream_with_prefetch o n =
      (successRun n ++ cleanupEvents o n (successRun n), RunExit.ok) := by
  unfold stream_with_prefetch
  rw [if_neg (by simp [hp]; omega)]
  rw [if_neg (by omega : ¬n = 0)]
  rw [mainBody_success o n hstream hcre hplay]
  rfl

theorem mem_range'_iff (s k m : Nat) :
    m ∈ List.range' s k ↔ s ≤ m ∧ m < s + k := by
  rw [List.mem_range']
  constructor
  · rintro ⟨i, hi, rfl⟩
    omega
  · rintro ⟨h1, h2⟩
    exact ⟨m - s, by omega, by omega⟩

theorem submit_mem_block (n j c : Nat) :
    Event.submit c ∈ block n j ↔ j + 1 ≤ n ∧ c = j + 1 := by
  by_cases h : j + 1 ≤ n <;> simp [block, h]

theorem playFile_mem_block (n j c : Nat) :
    Event.playFile c ∈ block n j ↔ c = j := by
  by_cases h : j + 1 ≤ n <;> simp [block, h]

theorem awaitFut_mem_block (n j c : Nat) :
    Event.awaitFut c ∈ block n j ↔ c = j := by
  by_cases h : j + 1 ≤ n <;> simp [block, h]

/-- Chunks `2..n` are exactly the submitted chunks of a successful run. -/
theorem submit_mem_successRun (n c : Nat) (hn : 2 ≤ n) :
    Event.submit c ∈ successRun n ↔ 2 ≤ c ∧ c ≤ n := by
  unfold successRun
  simp only [List.mem_cons, List.mem_append, List.mem_flatMap,
    submit_mem_block, mem_range'_iff, List.mem_singleton]
  constructor
  · intro h
    rcases h with h | h | h | ⟨j, hj, hj2, rfl⟩ | h
    · simp at h
    · simp only [Event.submit.injEq] at h
      omega
    · simp at h
    · omega
    · simp at h
  · intro hc
    by_cases h2 : c = 2
    · subst h2
      simp
    · exact Or.inr (Or.inr (Or.inr (Or.inl ⟨c - 1, ⟨by omega, by omega⟩,
        by omega, by omega⟩)))

/-- Chunks `2..n` are exactly the pre-rendered playback events of a
successful run. -/
theorem playFile_mem_successRun (n c : Nat) :
    Event.playFile c ∈ successRun n ↔ 2 ≤ c ∧ c ≤ n := by
  unfold successRun
  simp only [List.mem_cons, List.mem_append, List.mem_flatMap,
    playFile_mem_block, mem_range'_iff, List.mem_singleton]
  constructor
  · intro h
    rcases h with h | h | h | ⟨j, hj, rfl⟩ | h
    · simp at h
    · simp at h
    · simp at h
    · omega
    · simp at h
  · intro hc
    exact Or.inr (Or.inr (Or.inr (Or.inl ⟨c, ⟨by omega, by omega⟩, rfl⟩)))

/-- `true` exactly on file-deletion events. -/
def isDelete : Event → Bool
  | Event.deleteFile _ => true
  | _ => false

/-- The pre-cleanup trace contains no deletion and no directory-removal
event. -/
theorem successRun_no_delete (n : Nat) :
    ∀ e ∈ successRun n, isDelete e = false ∧ e ≠ Event.removeDir := by
  intro e he
  unfold successRun at he
  simp only [List.mem_cons, List.mem_append, List.mem_flatMap,
    List.mem_singleton] at he
  rcases he with rfl | rfl | rfl | ⟨j, _, hj⟩ | rfl | h
  · exact ⟨rfl, by simp⟩
  · exact ⟨rfl, by simp⟩
  · exact ⟨rfl, by simp⟩
  · have hdisj : e = Event.awaitFut j ∨ e = Event.submit (j + 1) ∨
        e = Event.playFile j := by
      by_cases hb : j + 1 ≤ n <;> simp [block, hb] at hj <;> tauto
    rcases hdisj with rfl | rfl | rfl <;> exact ⟨rfl, by simp⟩
  · exact ⟨rfl, by simp⟩
  · simp at h

/-- `takeWhile` passes over a block that satisfies the predicate. -/
theorem takeWhile_append_all {p : Event → Bool} :
    ∀ (l₁ l₂ : List Event), (∀ e ∈ l₁, p e = true) →
      List.takeWhile p (l₁ ++ l₂) = l₁ ++ List.takeWhile p l₂ := by
  intro l₁
  induction l₁ with
  | nil => intro l₂ _; rfl
  | cons a l ih =>
    intro l₂ hall
    rw [List.cons_append, List.takeWhile_cons]
    rw [hall a (by simp)]
    simp only [if_true, List.cons_append]
    rw [ih l₂ (fun e he => hall e (by simp [he]))]

/-- C3 counterexample: in a fully successful 4-segment run, at the instant
after chunk 4's future is awaited (its file confirmed present) and before
chunk 4 is played — the first ten events of the trace — the files of
segments 2, 3 and 4 are all live: each was confirmed to exist by the
`os.path.exists` check and no deletion event has occurred, even though
segments 2 and 3 were already played.  Three live prefetch files exceed the
claimed bound of two, and segment 2's file was not deleted immediately
after its successful playback. -/
theorem three_live_prefetch_files :
    ((stream_with_prefetch oracleOK 4).1.take 10).all (fun e => !isDelete e) = true ∧
    Event.awaitFut 2 ∈ (stream_with_prefetch oracleOK 4).1.take 10 ∧
    Event.awaitFut 3 ∈ (stream_with_prefetch oracleOK 4).1.take 10 ∧
    Event.awaitFut 4 ∈ (stream_with_prefetch oracleOK 4).1.take 10 ∧
    Event.playFile 2 ∈ (stream_with_prefetch oracleOK 4).1.take 10 ∧
    Event.playFile 3 ∈ (stream_with_prefetch oracleOK 4).1.take 10 := by decide

/-- C3 (amended): temporary files are deleted only at pipeline teardown,
not after each playback.  In a successful `n ≥ 2` run every playback event
precedes every file-deletion event (so up to `n - 1` prefetch files are
live simultaneously), every prefetched segment's file is deleted during
teardown, and removing the directory is the last event. -/
theorem files_deleted_only_at_teardown (o : Oracle) (n : Nat) (hn : 2 ≤ n)
    (hp : o.playerAvailable = true) (hstream : ∀ i, o.streamRC i = 0)
    (hcre : ∀ i, o.synthCreates i = true) (hplay : ∀ i, o.playRC i = 0) :
    (∀ j, 2 ≤ j → j ≤ n →
      Event.playFile j ∈
        (stream_with_prefetch o n).1.takeWhile (fun e => !isDelete e)) ∧
    (∀ c, 2 ≤ c → c ≤ n →
      Event.deleteFile c ∈ (stream_with_prefetch o n).1) ∧
    (stream_with_prefetch o n).1.getLast? = some Event.removeDir := by
  have hrun := stream_with_prefetch_success o n hn hp hstream hcre hplay
  have htr : (stream_with_prefetch o n).1 =
      successRun n ++ cleanupEvents o n (successRun n) := by
    rw [hrun]
  refine ⟨?_, ?_, ?_⟩
  · intro j hj2 hjn
    rw [htr, takeWhile_append_all _ _
      (fun e he => by simp [(successRun_no_delete n e he).1])]
    exact List.mem_append.mpr
      (Or.inl ((playFile_mem_successRun n j).mpr ⟨hj2, hjn⟩))
  · intro c hc2 hcn
    rw [htr]
    refine List.mem_append.mpr (Or.inr ?_)
    unfold cleanupEvents
    refine List.mem_append.mpr (Or.inl ?_)
    rw [List.mem_map]
    have hc1 : c - 1 + 1 = c := by omega
    refine ⟨c - 1, ?_, by rw [hc1]⟩
    rw [List.mem_filter]
    constructor
    · rw [List.mem_range]
      omega
    · rw [hc1]
      simp [hcre c, (submit_mem_successRun n c hn).mpr ⟨hc2, hcn⟩]
  · rw [htr]
    unfold cleanupEvents
    simp [List.getLast?_append]

/-- Witness for the amended C3 at the all-success oracle with two
segments. -/
theorem files_deleted_only_at_teardown_witness :
    (∀ j, 2 ≤ j → j ≤ 2 →
      Event.playFile j ∈
        (stream_with_prefetch oracleOK 2).1.takeWhile (fun e => !isDelete e)) ∧
    (∀ c, 2 ≤ c → c ≤ 2 →
      Event.deleteFile c ∈ (stream_with_prefetch oracleOK 2).1) ∧
    (stream_with_prefetch oracleOK 2).1.getLast? = some Event.removeDir :=
  files_deleted_only_at_teardown oracleOK 2 (by decide) rfl (fun _ => rfl)
    (fun _ => rfl) (fun _ => rfl)

/-! ### Claim C2: temporal shape of a successful run -/

/-- The audible playback events of a trace, in order: the spec counts the
direct streaming of segment 1 as `play(1)` and the pre-rendered playback of
segment `i` as `play(i)`. -/
def playedSeq (tr : List Event) : List Nat :=
  tr.filterMap (fun e =>
    match e with
    | Event.stream i => some i
    | Event.playFile i => some i
    | _ => none)

/-- The playback event of segment `i` (the direct-stream call for segment
1, the pre-rendered playback otherwise). -/
def playEvent (i : Nat) : Event :=
  if i = 1 then Event.stream 1 else Event.playFile i

/-- The trace prefix strictly before the playback of segment `i`: the state
of the world at the moment `play(i)` is invoked. -/
def playPfx (tr : List Event) (i : Nat) : List Event :=
  tr.takeWhile (fun e => decide (e ≠ playEvent i))

/-- Chunk `c`'s background synthesis is in flight in a trace prefix: it has
been submitted but its future has not been awaited. -/
def TaskInFlight (pfx : List Event) (c : Nat) : Prop :=
  Event.submit c ∈ pfx ∧ Event.awaitFut c ∉ pfx

theorem playedSeq_block (n j : Nat) : playedSeq (block n j) = [j] := by
  by_cases hb : j + 1 ≤ n <;> simp [block, hb, playedSeq]

theorem playedSeq_flatMap (n : Nat) :
    ∀ js : List Nat, playedSeq (js.flatMap (block n)) = js := by
  intro js
  induction js with
  | nil => rfl
  | cons j rest ih =>
    rw [List.flatMap_cons]
    unfold playedSeq at ih ⊢
    rw [List.filterMap_append, ih]
    have := playedSeq_block n j
    unfold playedSeq at this
    rw [this]
    rfl

theorem playedSeq_deletes (o : Oracle) (n : Nat) (tr : List Event) :
    playedSeq (cleanupEvents o n tr) = [] := by
  unfold cleanupEvents playedSeq
  rw [List.filterMap_append]
  have h1 : ∀ js : List Nat,
      (js.map (fun idx => Event.deleteFile (idx + 1))).filterMap (fun e =>
        match e with
        | Event.stream i => some i
        | Event.playFile i => some i
        | _ => none) = [] := by
    intro js
    induction js with
    | nil => rfl
    | cons a l ih => simpa using ih
  rw [h1]
  rfl

/-- Part (a) of C2: the playback sequence of a successful run is exactly
`1, 2, …, n`. -/
theorem playedSeq_success (o : Oracle) (n : Nat) (hn : 2 ≤ n)
    (hp : o.playerAvailable = true) (hstream : ∀ i, o.streamRC i = 0)
    (hcre : ∀ i, o.synthCreates i = true) (hplay : ∀ i, o.playRC i = 0) :
    playedSeq (stream_with_prefetch o n).1 = List.range' 1 n := by
  have htr : (stream_with_prefetch o n).1 =
      successRun n ++ cleanupEvents o n (successRun n) := by
    rw [stream_with_prefetch_success o n hn hp hstream hcre hplay]
  rw [htr]
  unfold playedSeq
  rw [List.filterMap_append]
  have h2 := playedSeq_deletes o n (successRun n)
  unfold playedSeq at h2
  rw [h2, List.append_nil]
  unfold successRun
  simp only [List.filterMap_cons]
  rw [List.filterMap_append]
  have h3 := playedSeq_flatMap n (List.range' 2 (n - 1))
  unfold playedSeq at h3
  rw [h3]
  have h4 : n = (n - 1) + 1 := by omega
  conv_rhs => rw [h4, List.range'_succ]
  simp

/-- `takeWhile` never reaches the right part when something in the left
part fails the predicate. -/
theorem takeWhile_stops_in_left {p : Event → Bool} :
    ∀ (l₁ l₂ : List Event), (∃ e ∈ l₁, p e = false) →
      List.takeWhile p (l₁ ++ l₂) = List.takeWhile p l₁ := by
  intro l₁
  induction l₁ with
  | nil =>
    intro l₂ h
    simp at h
  | cons a l ih =>
    intro l₂ h
    rw [List.cons_append, List.takeWhile_cons, List.takeWhile_cons]
    by_cases ha : p a
    · rw [ha]
      simp only [if_true]
      obtain ⟨e, he, hpe⟩ := h
      rcases List.mem_cons.mp he with rfl | he'
      · rw [ha] at hpe
        cases hpe
      · rw [ih l₂ ⟨e, he', hpe⟩]
    · have ha' : p a = false := by
        cases hpa : p a
        · rfl
        · exact absurd hpa ha
      rw [ha']
      simp

/-- Submissions occurring in a sequence of drain blocks. -/
theorem submit_mem_flatMap (n : Nat) (js : List Nat) (c : Nat) :
    Event.submit c ∈ js.flatMap (block n) ↔
      ∃ j ∈ js, j + 1 ≤ n ∧ c = j + 1 := by
  simp [List.mem_flatMap, submit_mem_block]

/-- Playback events occurring in a sequence of drain blocks. -/
theorem playFile_mem_flatMap (n : Nat) (js : List Nat) (c : Nat) :
    Event.playFile c ∈ js.flatMap (block n) ↔ c ∈ js := by
  simp [List.mem_flatMap, playFile_mem_block]

/-- The drain-loop trace truncated just before `playFile i`: all complete
blocks below `i`, then chunk `i`'s await and the submission of chunk
`i + 1` (when one exists). -/
theorem takeWhile_drain (n i : Nat) :
    ∀ (k j : Nat), 2 ≤ j → j ≤ i → i < j + k →
      List.takeWhile (fun e => decide (e ≠ Event.playFile i))
          ((List.range' j k).flatMap (block n)) =
        ((List.range' j (i - j)).flatMap (block n)) ++
          (Event.awaitFut i ::
            (if i + 1 ≤ n then [Event.submit (i + 1)] else [])) := by
  intro k
  induction k with
  | zero =>
    intro j hj2 hji hik
    exact absurd hji (by omega)
  | succ k ih =>
    intro j hj2 hji hik
    rw [List.range'_succ, List.flatMap_cons]
    by_cases hji' : j = i
    · subst hji'
      rw [takeWhile_stops_in_left _ _
        ⟨Event.playFile j, (playFile_mem_block n j j).mpr rfl, by simp⟩]
      have hz : j - j = 0 := by omega
      rw [hz]
      by_cases hb : j + 1 ≤ n <;>
        simp [block, hb, List.takeWhile_cons]
    · have hlt : j < i := by omega
      rw [takeWhile_append_all _ _ ?hall]
      case hall =>
        intro e he
        have hdisj : e = Event.awaitFut j ∨ e = Event.submit (j + 1) ∨
            e = Event.playFile j := by
          by_cases hb : j + 1 ≤ n <;> simp [block, hb] at he <;> tauto
        rcases hdisj with rfl | rfl | rfl <;> simp
        omega
      rw [ih (j + 1) (by omega) (by omega) (by omega)]
      have hr : i - j = (i - (j + 1)) + 1 := by omega
      rw [hr, List.range'_succ, List.flatMap_cons, List.append_assoc]

/-- The successful trace, reassociated around the drain blocks. -/
theorem successTrace_shape (o : Oracle) (n : Nat) :
    successRun n ++ cleanupEvents o n (successRun n) =
      [Event.mkdirTemp, Event.submit 2, Event.stream 1] ++
        (((List.range' 2 (n - 1)).flatMap (block n)) ++
          (Event.awaitFut n :: cleanupEvents o n (successRun n))) := by
  unfold successRun
  simp [List.append_assoc]

/-- Part (b) of C2: at the moment `play(i)` is invoked in a successful run,
the synthesis of segment `i + 1` (when `i < n`) has already been submitted,
and the synthesis of segment `i + 2` has not. -/
theorem submits_at_play (o : Oracle) (n : Nat) (hn : 2 ≤ n)
    (hp : o.playerAvailable = true) (hstream : ∀ i, o.streamRC i = 0)
    (hcre : ∀ i, o.synthCreates i = true) (hplay : ∀ i, o.playRC i = 0) :
    ∀ i, 1 ≤ i → i ≤ n →
      (i < n → Event.submit (i + 1) ∈ playPfx (stream_with_prefetch o n).1 i) ∧
      Event.submit (i + 2) ∉ playPfx (stream_with_prefetch o n).1 i := by
  have htr : (stream_with_prefetch o n).1 =
      successRun n ++ cleanupEvents o n (successRun n) := by
    rw [stream_with_prefetch_success o n hn hp hstream hcre hplay]
  intro i hi1 hin
  by_cases hi : i = 1
  · subst hi
    have hpfx : playPfx (stream_with_prefetch o n).1 1 =
        [Event.mkdirTemp, Event.submit 2] := by
      rw [htr]
      unfold playPfx playEvent successRun
      simp [List.takeWhile_cons]
    rw [hpfx]
    constructor
    · intro _
      simp
    · simp
  · have hi2 : 2 ≤ i := by omega
    have hplayev : playEvent i = Event.playFile i := by
      unfold playEvent
      rw [if_neg hi]
    have hpfx : playPfx (stream_with_prefetch o n).1 i =
        [Event.mkdirTemp, Event.submit 2, Event.stream 1] ++
          (((List.range' 2 (i - 2)).flatMap (block n)) ++
            (Event.awaitFut i ::
              (if i + 1 ≤ n then [Event.submit (i + 1)] else []))) := by
      rw [htr, successTrace_shape]
      unfold playPfx
      rw [hplayev]
      rw [takeWhile_append_all _ _ ?hpass]
      case hpass =>
        intro e he
        simp only [List.mem_cons] at he
        rcases he with rfl | rfl | rfl | he'
        · simp
        · simp
        · simp
        · simp at he'
      rw [takeWhile_stops_in_left _ _
        ⟨Event.playFile i, ?hmem, by simp⟩]
      case hmem =>
        rw [playFile_mem_flatMap, mem_range'_iff]
        omega
      rw [takeWhile_drain n i (n - 1) 2 (by omega) (by omega) (by omega)]
    rw [hpfx]
    constructor
    · intro hilt
      have hb : i + 1 ≤ n := by omega
      simp [hb]
    · intro hmem
      by_cases hb : i + 1 ≤ n <;>
        [skip; skip] <;>
        · simp only [hb, if_true, if_false, List.mem_append, List.mem_cons,
            submit_mem_flatMap, mem_range'_iff, List.mem_singleton,
            Event.submit.injEq] at hmem
          rcases hmem with (h | h | h | h) | ⟨j, hj, hjn, hc⟩ | h <;>
            first
              | (simp at h; omega)
              | omega
              | (simp at h)

theorem prefixCons {α : Type} {p : List α} {e : α} {l : List α}
    (h : p <+: e :: l) : p = [] ∨ ∃ q, p = e :: q ∧ q <+: l := by
  obtain ⟨t, ht⟩ := h
  cases p with
  | nil => exact Or.inl rfl
  | cons a p' =>
    rw [List.cons_append] at ht
    injection ht with h1 h2
    subst h1
    exact Or.inr ⟨p', rfl, ⟨t, h2⟩⟩

theorem cleanupEvents_no_submit (o : Oracle) (n : Nat) (tr : List Event) :
    ∀ e ∈ cleanupEvents o n tr, ∀ c, e ≠ Event.submit c := by
  intro e he c
  unfold cleanupEvents at he
  rcases List.mem_append.mp he with h | h
  · obtain ⟨idx, _, rfl⟩ := List.mem_map.mp h
    simp
  · simp at h
    subst h
    simp

/-- The in-flight invariant along the drain loop.  `P` is the trace already
executed before entering the iteration for chunk `j` (its submitted chunks
are `2..min j n`, its awaited chunks `2..j-1`), `q` ranges over prefixes of
the remaining trace, and `rest` (the final await plus cleanup) contains no
submissions.  At every instant at most one chunk is
submitted-but-not-awaited. -/
theorem drainInvAux (o : Oracle) (n : Nat) (rest : List Event)
    (hrest : ∀ e ∈ rest, ∀ c, e ≠ Event.submit c) :
    ∀ (k j : Nat) (P : List Event), 2 ≤ j → j + k = n + 1 →
      (∀ c, (Event.submit c ∈ P ↔ 2 ≤ c ∧ c ≤ j ∧ c ≤ n)) →
      (∀ c, (Event.awaitFut c ∈ P ↔ 2 ≤ c ∧ c < j)) →
      ∀ q, q <+: ((List.range' j k).flatMap (block n) ++ rest) →
        ∀ c₁ c₂, TaskInFlight (P ++ q) c₁ → TaskInFlight (P ++ q) c₂ →
          c₁ = c₂ := by
  intro k
  induction k with
  | zero =>
    intro j P hj2 hjk hsub haw q hq c₁ c₂ h₁ h₂
    have hnone : ∀ c, TaskInFlight (P ++ q) c → False := by
      intro c hc
      obtain ⟨hs, ha⟩ := hc
      have hq' : q <+: rest := by simpa using hq
      rcases List.mem_append.mp hs with h | h
      · have hbnd := (hsub c).mp h
        have hano : Event.awaitFut c ∉ P := fun hx =>
          ha (List.mem_append.mpr (Or.inl hx))
        rw [haw c] at hano
        omega
      · obtain ⟨t, ht⟩ := hq'
        exact hrest (Event.submit c)
          (by rw [← ht]; exact List.mem_append.mpr (Or.inl h)) c rfl
    exact (hnone c₁ h₁).elim
  | succ k ih =>
    intro j P hj2 hjk hsub haw q hq c₁ c₂ h₁ h₂
    have hjn : j ≤ n := by omega
    rw [List.range'_succ, List.flatMap_cons] at hq
    by_cases hb : j + 1 ≤ n
    · have hblock : block n j =
          [Event.awaitFut j, Event.submit (j + 1), Event.playFile j] := by
        simp [block, hb]
      rw [hblock] at hq
      simp only [List.cons_append, List.nil_append] at hq
      rcases prefixCons hq with rfl | ⟨q₁, rfl, hq₁⟩
      · have hchar : ∀ c, TaskInFlight (P ++ []) c → c = j := by
          intro c hc
          obtain ⟨hs, ha⟩ := hc
          have h1' := (hsub c).mp (by simpa using hs)
          have h2' : Event.awaitFut c ∉ P := by simpa using ha
          rw [haw c] at h2'
          omega
        exact (hchar c₁ h₁).trans (hchar c₂ h₂).symm
      rcases prefixCons hq₁ with rfl | ⟨q₂, rfl, hq₂⟩
      · have hchar : ∀ c, TaskInFlight (P ++ [Event.awaitFut j]) c → False := by
          intro c hc
          obtain ⟨hs, ha⟩ := hc
          have hs' : Event.submit c ∈ P := by
            rcases List.mem_append.mp hs with h | h
            · exact h
            · simp at h
          have h1' := (hsub c).mp hs'
          have hnaw : ¬(2 ≤ c ∧ c < j) := by
            rw [← haw c]
            intro hx
            exact ha (List.mem_append.mpr (Or.inl hx))
          have hcnej : c ≠ j := by
            rintro rfl
            exact ha (List.mem_append.mpr (Or.inr (by simp)))
          omega
        exact (hchar c₁ h₁).elim
      rcases prefixCons hq₂ with rfl | ⟨q₃, rfl, hq₃⟩
      · have hchar : ∀ c,
            TaskInFlight (P ++ [Event.awaitFut j, Event.submit (j + 1)]) c →
              c = j + 1 := by
          intro c hc
          obtain ⟨hs, ha⟩ := hc
          have hnaw : ¬(2 ≤ c ∧ c < j) := by
            rw [← haw c]
            intro hx
            exact ha (List.mem_append.mpr (Or.inl hx))
          have hcnej : c ≠ j := by
            rintro rfl
            exact ha (List.mem_append.mpr (Or.inr (by simp)))
          rcases List.mem_append.mp hs with h | h
          · have := (hsub c).mp h
            omega
          · simp at h
            exact h
        exact (hchar c₁ h₁).trans (hchar c₂ h₂).symm
      · have hP' : ∀ c, (Event.submit c ∈
            P ++ [Event.awaitFut j, Event.submit (j + 1), Event.playFile j] ↔
              2 ≤ c ∧ c ≤ j + 1 ∧ c ≤ n) := by
          intro c
          rw [List.mem_append, hsub c]
          constructor
          · rintro (h | h)
            · omega
            · simp at h
              omega
          · intro h
            by_cases hcj : c ≤ j
            · exact Or.inl ⟨h.1, hcj, h.2.2⟩
            · refine Or.inr (by simp; omega)
        have hA' : ∀ c, (Event.awaitFut c ∈
            P ++ [Event.awaitFut j, Event.submit (j + 1), Event.playFile j] ↔
              2 ≤ c ∧ c < j + 1) := by
          intro c
          rw [List.mem_append, haw c]
          constructor
          · rintro (h | h)
            · omega
            · simp at h
              omega
          · intro h
            by_cases hcj : c < j
            · exact Or.inl ⟨h.1, hcj⟩
            · refine Or.inr (by simp; omega)
        have happ : P ++ (Event.awaitFut j :: Event.submit (j + 1) ::
            Event.playFile j :: q₃) =
            (P ++ [Event.awaitFut j, Event.submit (j + 1), Event.playFile j]) ++
              q₃ := by
          simp
        rw [happ] at h₁ h₂
        exact ih (j + 1) _ (by omega) (by omega) hP' hA' q₃ hq₃ c₁ c₂ h₁ h₂
    · have hblock : block n j = [Event.awaitFut j, Event.playFile j] := by
        simp [block, hb]
      rw [hblock] at hq
      simp only [List.cons_append, List.nil_append] at hq
      rcases prefixCons hq with rfl | ⟨q₁, rfl, hq₁⟩
      · have hchar : ∀ c, TaskInFlight (P ++ []) c → c = j := by
          intro c hc
          obtain ⟨hs, ha⟩ := hc
          have h1' := (hsub c).mp (by simpa using hs)
          have h2' : Event.awaitFut c ∉ P := by simpa using ha
          rw [haw c] at h2'
          omega
        exact (hchar c₁ h₁).trans (hchar c₂ h₂).symm
      rcases prefixCons hq₁ with rfl | ⟨q₂, rfl, hq₂⟩
      · have hchar : ∀ c, TaskInFlight (P ++ [Event.awaitFut j]) c → False := by
          intro c hc
          obtain ⟨hs, ha⟩ := hc
          have hs' : Event.submit c ∈ P := by
            rcases List.mem_append.mp hs with h | h
            · exact h
            · simp at h
          have h1' := (hsub c).mp hs'
          have hnaw : ¬(2 ≤ c ∧ c < j) := by
            rw [← haw c]
            intro hx
            exact ha (List.mem_append.mpr (Or.inl hx))
          have hcnej : c ≠ j := by
            rintro rfl
            exact ha (List.mem_append.mpr (Or.inr (by simp)))
          omega
        exact (hchar c₁ h₁).elim
      · have hP' : ∀ c, (Event.submit c ∈
            P ++ [Event.awaitFut j, Event.playFile j] ↔
              2 ≤ c ∧ c ≤ j + 1 ∧ c ≤ n) := by
          intro c
          rw [List.mem_append, hsub c]
          constructor
          · rintro (h | h)
            · omega
            · simp at h
          · intro h
            exact Or.inl ⟨h.1, by omega, h.2.2⟩
        have hA' : ∀ c, (Event.awaitFut c ∈
            P ++ [Event.awaitFut j, Event.playFile j] ↔
              2 ≤ c ∧ c < j + 1) := by
          intro c
          rw [List.mem_append, haw c]
          constructor
          · rintro (h | h)
            · omega
            · simp at h
              omega
          · intro h
            by_cases hcj : c < j
            · exact Or.inl ⟨h.1, hcj⟩
            · refine Or.inr (by simp; omega)
        have happ : P ++ (Event.awaitFut j :: Event.playFile j :: q₂) =
            (P ++ [Event.awaitFut j, Event.playFile j]) ++ q₂ := by
          simp
        rw [happ] at h₁ h₂
        exact ih (j + 1) _ (by omega) (by omega) hP' hA' q₂ hq₂ c₁ c₂ h₁ h₂

/-- Part (c) of C2: at most one background synthesis task is in flight at
any instant of a successful run. -/
theorem single_task_in_flight (o : Oracle) (n : Nat) (hn : 2 ≤ n)
    (hp : o.playerAvailable = true) (hstream : ∀ i, o.streamRC i = 0)
    (hcre : ∀ i, o.synthCreates i = true) (hplay : ∀ i, o.playRC i = 0) :
    ∀ pfx, pfx <+: (stream_with_prefetch o n).1 →
      ∀ c₁ c₂, TaskInFlight pfx c₁ → TaskInFlight pfx c₂ → c₁ = c₂ := by
  have htr : (stream_with_prefetch o n).1 =
      successRun n ++ cleanupEvents o n (successRun n) := by
    rw [stream_with_prefetch_success o n hn hp hstream hcre hplay]
  intro pfx hpfx c₁ c₂ h₁ h₂
  rw [htr, successTrace_shape] at hpfx
  simp only [List.cons_append, List.nil_append] at hpfx
  rcases prefixCons hpfx with rfl | ⟨q₁, rfl, h1p⟩
  · obtain ⟨hs, _⟩ := h₁
    simp at hs
  rcases prefixCons h1p with rfl | ⟨q₂, rfl, h2p⟩
  · obtain ⟨hs, _⟩ := h₁
    simp at hs
  rcases prefixCons h2p with rfl | ⟨q₃, rfl, h3p⟩
  · have hchar : ∀ c, TaskInFlight [Event.mkdirTemp, Event.submit 2] c →
        c = 2 := by
      intro c hc
      obtain ⟨hs, _⟩ := hc
      simp at hs
      exact hs
    exact (hchar c₁ h₁).trans (hchar c₂ h₂).symm
  have happ : Event.mkdirTemp :: Event.submit 2 :: Event.stream 1 :: q₃ =
      [Event.mkdirTemp, Event.submit 2, Event.stream 1] ++ q₃ := rfl
  rw [happ] at h₁ h₂
  refine drainInvAux o n
    (Event.awaitFut n :: cleanupEvents o n (successRun n)) ?hrest (n - 1) 2 _
    (by omega) (by omega) ?hsub ?haw q₃ h3p c₁ c₂ h₁ h₂
  case hrest =>
    intro e he c
    rcases List.mem_cons.mp he with rfl | h
    · simp
    · exact cleanupEvents_no_submit o n _ e h c
  case hsub =>
    intro c
    simp only [List.mem_cons, Event.submit.injEq]
    constructor
    · rintro (h | h | h | h)
      · cases h
      · omega
      · cases h
      · simp at h
    · intro h
      right
      left
      omega
  case haw =>
    intro c
    simp only [List.mem_cons]
    constructor
    · rintro (h | h | h | h)
      · cases h
      · cases h
      · cases h
      · simp at h
    · intro h
      omega

/-- C2: for every sequence of `n ≥ 2` segments, assuming a player is
available and every synthesis and playback call succeeds: the playback
events occur in strict index order `1..n` (segment 1 via direct streaming);
at the moment `play(i)` is invoked the background synthesis for segment
`i + 1` (when `i < n`) has already been issued but the synthesis for
segment `i + 2` has not; and at most one background synthesis task is in
flight at any instant (any two in-flight chunks of any trace prefix
coincide). -/
theorem pipeline_temporal_invariants (o : Oracle) (n : Nat) (hn : 2 ≤ n)
    (hp : o.playerAvailable = true) (hstream : ∀ i, o.streamRC i = 0)
    (hcre : ∀ i, o.synthCreates i = true) (hplay : ∀ i, o.playRC i = 0) :
    playedSeq (stream_with_prefetch o n).1 = List.range' 1 n ∧
    (∀ i, 1 ≤ i → i ≤ n →
      (i < n → Event.submit (i + 1) ∈ playPfx (stream_with_prefetch o n).1 i) ∧
      Event.submit (i + 2) ∉ playPfx (stream_with_prefetch o n).1 i) ∧
    (∀ pfx, pfx <+: (stream_with_prefetch o n).1 →
      ∀ c₁ c₂, TaskInFlight pfx c₁ → TaskInFlight pfx c₂ → c₁ = c₂) :=
  ⟨playedSeq_success o n hn hp hstream hcre hplay,
   submits_at_play o n hn hp hstream hcre hplay,
   single_task_in_flight o n hn hp hstream hcre hplay⟩

/-- Witness for C2 at the all-success oracle with two segments. -/
theorem pipeline_temporal_invariants_witness :
    playedSeq (stream_with_prefetch oracleOK 2).1 = List.range' 1 2 ∧
    (∀ i, 1 ≤ i → i ≤ 2 →
      (i < 2 →
        Event.submit (i + 1) ∈ playPfx (stream_with_prefetch oracleOK 2).1 i) ∧
      Event.submit (i + 2) ∉ playPfx (stream_with_prefetch oracleOK 2).1 i) ∧
    (∀ pfx, pfx <+: (stream_with_prefetch oracleOK 2).1 →
      ∀ c₁ c₂, TaskInFlight pfx c₁ → TaskInFlight pfx c₂ → c₁ = c₂) :=
  pipeline_temporal_invariants oracleOK 2 (by decide) rfl (fun _ => rfl)
    (fun _ => rfl) (fun _ => rfl)

end OtoTTS
